import Mathlib

/-!
Verification of the real-time ticker price update scheduler of
`src/index.tsx` (Simple_Stock_App).

The embedding models the scheduler's shared mutable state
(`trackedTickers`, `updateQueue`, `isUpdatingPriceLoop`, plus the stream
of published update events) as a Lean structure, and the scheduler's
asynchronous functions as state transformers.  Each `async` function of
the source is split at its single `await fetchRealPrice(...)` boundary
into a synchronous prefix (which may start a fetch) and a completion
step (which receives the oracle's response); in-flight fetches are
recorded explicitly as a list of pending jobs, so that the interleavings
possible on the JavaScript event loop are all represented by a
small-step transition relation.

Numeric prices are modelled as exact rationals (the source uses IEEE
doubles; none of the verified properties depend on rounding).  The
oracle's response is modelled as `Option String`: `none` stands for a
call that threw or whose `response.text` access failed, `some text` for
a textual reply.
-/

namespace StockApp

/-! ### Character classes and JavaScript string primitives (ASCII model)

Used by `fetchRealPrice` (digit filtering, `parseFloat`) and by the
ticker extraction pipeline (`/\b[A-Z]{1,5}\b/g`, `trim`,
`toUpperCase`).  The model covers the ASCII range, which is the range
the regular expression `[A-Z]` and the price texts exercise. -/

/-- Decides `0`–`9`, the digit class of the source's `[^0-9.]` filter. -/
def isDigitCh (c : Char) : Bool := decide (48 ≤ c.toNat ∧ c.toNat ≤ 57)

/-- Decides `A`–`Z`, one step of the regex class `[A-Z]`. -/
def isUpperAlpha (c : Char) : Bool := decide (65 ≤ c.toNat ∧ c.toNat ≤ 90)

/-- Decides `a`–`z`. -/
def isLowerAlpha (c : Char) : Bool := decide (97 ≤ c.toNat ∧ c.toNat ≤ 122)

/-- Decides an ASCII letter of either case. -/
def isAsciiLetter (c : Char) : Bool := isUpperAlpha c || isLowerAlpha c

/-- Word character of the JavaScript regex word boundary `\b`:
`[A-Za-z0-9_]` (code point 95 is `_`). -/
def isWordChar (c : Char) : Bool :=
  isUpperAlpha c || isLowerAlpha c || isDigitCh c || decide (c.toNat = 95)

/-- Per-character model of `String.prototype.toUpperCase`, faithful on
the ASCII range only: `a`–`z` maps to `A`–`Z`, everything else is
unchanged.  On ASCII strings this is exactly what JavaScript computes
(no ASCII character has a special case mapping).  Outside ASCII,
JavaScript applies the Unicode full case mappings, which can expand a
string — U+00DF `ß` becomes `"SS"`, U+0131 `ı` becomes `"I"`, the
ligature U+FB01 `ﬁ` becomes `"FI"` — and can thereby create extra
uppercase-letter tokens; that behaviour is outside this per-character
model, so every theorem about the uppercasing pipeline is stated for
queries of ASCII characters only. -/
def jsToUpperChar (c : Char) : Char :=
  if isLowerAlpha c then Char.ofNat (c.toNat - 32) else c

/-- Whitespace removed by `String.prototype.trim`, ASCII part: space,
tab, LF, VT, FF, CR (code points 9–13 and 32).  The non-ASCII
whitespace JavaScript also strips (U+00A0, U+2028, U+2029, U+FEFF, …)
is outside the ASCII scope of this pipeline model. -/
def isJsSpace (c : Char) : Bool :=
  decide (c = ' ') || decide (9 ≤ c.toNat ∧ c.toNat ≤ 13)

/-- Model of `String.prototype.trim`: drop whitespace from both ends. -/
def trimL (l : List Char) : List Char :=
  ((l.dropWhile isJsSpace).reverse.dropWhile isJsSpace).reverse

/-- Maximal runs of word characters of a string, in order; the tokens
over which the word-bounded regex `/\b[A-Z]{1,5}\b/g` can match.  The
accumulator holds the current run, reversed. -/
def wordRunsAux : List Char → List Char → List (List Char)
  | [], acc => if acc.isEmpty then [] else [acc.reverse]
  | c :: cs, acc =>
    if isWordChar c then wordRunsAux cs (c :: acc)
    else (if acc.isEmpty then [] else [acc.reverse]) ++ wordRunsAux cs []

/-- Maximal word-character runs of a character list. -/
def wordRuns (l : List Char) : List (List Char) := wordRunsAux l []

/-- Whether a maximal word run is matched by `/\b[A-Z]{1,5}\b/`: the
run must consist of one to five uppercase letters.  (A shorter
uppercase prefix of a longer run cannot match, because the closing `\b`
would fall between two word characters.) -/
def tickerToken (r : List Char) : Bool :=
  decide (1 ≤ r.length) && decide (r.length ≤ 5) && r.all isUpperAlpha

/-- Model of `trackTickersFromPrompt` (src/index.tsx:1070): the list of
matches of `/\b[A-Z]{1,5}\b/g` in the prompt, in order; each match is
passed to `addTickerToTape`. -/
def trackTickersFromPrompt (prompt : String) : List String :=
  ((wordRuns prompt.data).filter tickerToken).map (fun r => String.mk r)

/-- Model of the ticker-tracking effect of `handleFormSubmit`
(src/index.tsx:1083): an empty (all-whitespace) input returns early;
otherwise the prompt is trimmed, converted to uppercase, and scanned by
`trackTickersFromPrompt`.  Faithful for queries of ASCII characters;
for other code points the uppercasing step `jsToUpperChar` omits
JavaScript's Unicode full case mappings (see its doc comment). -/
def handleFormSubmit (input : String) : List String :=
  let p := trimL input.data
  if p.isEmpty then []
  else trackTickersFromPrompt (String.mk (p.map jsToUpperChar))

/-! ### Price Oracle Client: `fetchRealPrice` (src/index.tsx:862) -/

/-- Characters surviving `.replace(/[^0-9.]/g, '')` applied to the
oracle's response text (the source's preceding `.trim()` removes only
whitespace, which this filter removes anyway). -/
def priceDigits (text : String) : List Char :=
  text.data.filter (fun c => isDigitCh c || decide (c = '.'))

/-- Numeric value of a digit list (most significant first). -/
def digitsToNat (l : List Char) : ℕ :=
  l.foldl (fun n c => 10 * n + (c.toNat - 48)) 0

/-- Model of JavaScript `parseFloat` on a string containing only digits
and dots (the output of `priceDigits`): parse a leading digit run, then
an optional `.` followed by a second digit run; anything after that is
ignored.  `NaN` (no digits parsed at all, e.g. `""` or `"."`) is
`none`.  The parsed decimal `a.b` is returned as the pair
(mantissa `a·10ᵏ + b`, exponent `k`), denoting `(a·10ᵏ + b) / 10ᵏ`. -/
def jsParseFloatParts (l : List Char) : Option (ℕ × ℕ) :=
  let intPart := l.takeWhile isDigitCh
  let rest := l.dropWhile isDigitCh
  let fracPart := match rest with
    | '.' :: r => r.takeWhile isDigitCh
    | _ => []
  if intPart.isEmpty && fracPart.isEmpty then none
  else some (digitsToNat intPart * 10 ^ fracPart.length + digitsToNat fracPart, fracPart.length)

/-- Rational value of a parsed decimal (mantissa, exponent) pair.  The
exponent-zero case is stated without the division so that integer
prices reduce to plain numerals by kernel computation. -/
def decimalToRat (pr : ℕ × ℕ) : ℚ :=
  if pr.2 = 0 then (pr.1 : ℚ) else (pr.1 : ℚ) / 10 ^ pr.2

/-- Numeric value of JavaScript `parseFloat` on a digits-and-dots
string. -/
def jsParseFloat (l : List Char) : Option ℚ :=
  (jsParseFloatParts l).map decimalToRat

/-- Model of `fetchRealPrice` (src/index.tsx:862): `none` for a call
that threw (`catch` → `return null`); otherwise the response text is
stripped to `[0-9.]`, parsed with `parseFloat`, and a `NaN` or zero
result is rejected (`return null`).  The source's `price === 0` test is
stated on the mantissa — the parsed value `mantissa / 10^exponent` is
zero exactly when the mantissa is — so that the definition evaluates by
kernel computation.  The returned value is never an exception: every
outcome is an `Option`. -/
def fetchRealPrice (resp : Option String) : Option ℚ :=
  match resp with
  | none => none
  | some text =>
    match jsParseFloatParts (priceDigits text) with
    | none => none
    | some pr => if pr.1 = 0 then none else some (decimalToRat pr)

/-! ### Market Session Clock: `isMarketOpen` (src/index.tsx:801) -/

/-- Civil time in the exchange's (Eastern) time zone, as the source
reads it off the `Date` converted with `timeZone: America/New_York`:
`day` is `getDay()` (0 = Sunday … 6 = Saturday), `month` is 1–12,
`hour` is 0–23, `minute` is 0–59. -/
structure ETTime where
  year : ℕ
  month : ℕ
  date : ℕ
  day : ℕ
  hour : ℕ
  minute : ℕ

/-- Day of week (JavaScript `getDay` convention, 0 = Sunday) from a
Gregorian calendar date, by Zeller's congruence; used to supply
`ETTime.day` consistently with the calendar date in concrete
instances. -/
def zellerDay (y m d : ℕ) : ℕ :=
  let mm := if m < 3 then m + 12 else m
  let yy := if m < 3 then y - 1 else y
  let K := yy % 100
  let J := yy / 100
  (d + 13 * (mm + 1) / 5 + K + K / 4 + J / 4 + 5 * J + 6) % 7

/-- The holiday list of `isMarketOpen` (src/index.tsx:819), as
month–date pairs.  The source builds strings `"month-date"`; that
encoding is injective on calendar dates, so pairs are equivalent.  The
source's "floating" entries evaluate `new Date(year, 0, 15).getDate()`
and the like, which is always just the fixed day of month written in
the constructor (the dates Jan 15, Feb 19, May 27, Sep 2, Nov 28 exist
in every year), so the resulting list is the same for every year. -/
def holidayList (_year : ℕ) : List (ℕ × ℕ) :=
  [(1, 1), (1, 15), (2, 19), (5, 27), (6, 19), (7, 4), (9, 2), (11, 28), (12, 25)]

/-- Model of `isMarketOpen` (src/index.tsx:801) as a function of the
Eastern-time civil time it derives from the clock: open iff the time is
in `[09:30, 16:00)`, the day is Monday–Friday, and the date is not in
the holiday list. -/
def isMarketOpen (t : ETTime) : Bool :=
  let isOpenTime :=
    (decide (9 < t.hour) || (decide (t.hour = 9) && decide (30 ≤ t.minute))) && decide (t.hour < 16)
  let isOpenDay := decide (0 < t.day) && decide (t.day < 6)
  if !isOpenTime || !isOpenDay then false
  else if (holidayList t.year).contains (t.month, t.date) then false
  else true

/-! ### Ticker Registry (the `trackedTickers` JavaScript `Map`)

An association list with the `Map` operations used by the source.
`Map.set` overwrites in place if the key is present and appends
otherwise; `Map.delete` removes the key; `Map.has` / `Array.from(keys())`
test and snapshot membership. -/

/-- Model of `trackedTickers.has`. -/
def mapHas (k : String) (m : List (String × ℚ)) : Bool :=
  m.any (fun e => decide (e.1 = k))

/-- Model of `trackedTickers.set`. -/
def mapSet (k : String) (v : ℚ) (m : List (String × ℚ)) : List (String × ℚ) :=
  if mapHas k m then m.map (fun e => if e.1 = k then (k, v) else e) else m ++ [(k, v)]

/-- Model of `trackedTickers.delete`. -/
def mapDelete (k : String) (m : List (String × ℚ)) : List (String × ℚ) :=
  m.filter (fun e => decide (e.1 ≠ k))

/-- Model of `Array.from(trackedTickers.keys())`. -/
def mapKeys (m : List (String × ℚ)) : List String := m.map Prod.fst

/-- Model of `trackedTickers.get`. -/
def mapLookup (k : String) (m : List (String × ℚ)) : Option ℚ :=
  (m.find? (fun e => decide (e.1 = k))).map Prod.snd

/-! ### Scheduler state and transition system -/

/-- The scheduler's shared mutable state (src/index.tsx:38–41), plus
the ordered stream of published update events (each
`window.dispatchEvent` of a `{ticker, price}` message). -/
structure St where
  trackedTickers : List (String × ℚ)
  updateQueue : List String
  isUpdatingPriceLoop : Bool
  events : List (String × ℚ)
deriving DecidableEq

/-- An in-flight `fetchRealPrice` call, tagged with the continuation
that will consume its result: the drain loop (`priceUpdateLoop`), a
first fetch (`addTickerToTape`), or the closed-market sweep
(`fetchAllTrackedPrices`, which still has `rest` to fetch after the
current symbol). -/
inductive Job where
  | drain (t : String)
  | add (t : String)
  | sweep (t : String) (rest : List String)
deriving DecidableEq

/-- Entire system state: scheduler state plus pending fetches. -/
structure Sys where
  st : St
  jobs : List Job
deriving DecidableEq

/-- The queue that the drain step works from after its conditional
refill (src/index.tsx:899): refilled with the full registry key
snapshot exactly when the queue is empty and the registry is not. -/
def refillQueue (st : St) : List String :=
  if st.updateQueue.isEmpty && !st.trackedTickers.isEmpty then mapKeys st.trackedTickers
  else st.updateQueue

/-- Synchronous prefix of `priceUpdateLoop` (src/index.tsx:893), up to
its `await fetchRealPrice`: a no-op if the run guard is set or the
market (`m`) is closed; otherwise refill the queue if needed, return if
it is still empty, and otherwise set the guard, pop one symbol and
start its fetch.  A popped empty string (falsy in `if (ticker)`) skips
the fetch; the guard is then set and cleared back to `false` within the
same synchronous block, so the net state change is only the pop. -/
def priceUpdateLoop (m : Bool) (sys : Sys) : Sys :=
  if sys.st.isUpdatingPriceLoop || !m then sys
  else
    match refillQueue sys.st with
    | [] => sys
    | t :: rest =>
      if t.isEmpty then { sys with st := { sys.st with updateQueue := rest } }
      else
        { st := { sys.st with updateQueue := rest, isUpdatingPriceLoop := true }
          jobs := sys.jobs ++ [Job.drain t] }

/-- Effect common to every fetch completion that lands a price
(src/index.tsx:912, 935, 1043): on success, record the price in the
registry and publish an update event; on failure, do nothing. -/
def recordAndPublish (t : String) (resp : Option String) (st : St) : St :=
  match fetchRealPrice resp with
  | some p =>
    { st with
      trackedTickers := mapSet t p st.trackedTickers
      events := st.events ++ [(t, p)] }
  | none => st

/-- Completion of the drain step's fetch (src/index.tsx:911–924): record
and publish on success, then clear the run guard unconditionally; the
follow-up `setTimeout(priceUpdateLoop, 3000)` is a later `drainTick`
step.  `pre`/`post` locate the completed job. -/
def drainFetchComplete (t : String) (resp : Option String) (pre post : List Job) (sys : Sys) :
    Sys :=
  let st1 := recordAndPublish t resp sys.st
  { st := { st1 with isUpdatingPriceLoop := false }, jobs := pre ++ post }

/-- Synchronous prefix of `addTickerToTape` (src/index.tsx:1021), up to
its `await fetchRealPrice`: a no-op if the symbol is already tracked;
otherwise insert the pending sentinel `-1` and start the one-shot first
fetch. -/
def addTickerToTape (t : String) (sys : Sys) : Sys :=
  if mapHas t sys.st.trackedTickers then sys
  else
    { st := { sys.st with trackedTickers := mapSet t (-1) sys.st.trackedTickers }
      jobs := sys.jobs ++ [Job.add t] }

/-- Completion of `addTickerToTape`'s first fetch
(src/index.tsx:1041–1063).  On success: record and publish, then, if
the market is open and the queue does not already contain the symbol,
append it to the queue and invoke `priceUpdateLoop()` synchronously (the
fast path re-kick).  On failure: delete the symbol from the registry
unconditionally. -/
def addFetchComplete (t : String) (resp : Option String) (m : Bool) (pre post : List Job)
    (sys : Sys) : Sys :=
  match fetchRealPrice resp with
  | some p =>
    if m && !(sys.st.updateQueue.contains t) then
      priceUpdateLoop m
        { st :=
            { sys.st with
              trackedTickers := mapSet t p sys.st.trackedTickers
              events := sys.st.events ++ [(t, p)]
              updateQueue := sys.st.updateQueue ++ [t] }
          jobs := pre ++ post }
    else
      { st :=
          { sys.st with
            trackedTickers := mapSet t p sys.st.trackedTickers
            events := sys.st.events ++ [(t, p)] }
        jobs := pre ++ post }
  | none =>
    { st := { sys.st with trackedTickers := mapDelete t sys.st.trackedTickers }
      jobs := pre ++ post }

/-- Start of `fetchAllTrackedPrices` (src/index.tsx:931): snapshot the
registry keys and start the first fetch of the sweep; with an empty
registry the loop body never runs. -/
def fetchAllTrackedPricesBegin (sys : Sys) : Sys :=
  match mapKeys sys.st.trackedTickers with
  | [] => sys
  | t :: rest => { sys with jobs := sys.jobs ++ [Job.sweep t rest] }

/-- Completion of one sweep fetch (src/index.tsx:933–943): record and
publish on success, then (after the fixed 500 ms delay) start the fetch
of the next snapshot symbol, if any. -/
def sweepFetchComplete (t : String) (rest : List String) (resp : Option String)
    (pre post : List Job) (sys : Sys) : Sys :=
  let st1 := recordAndPublish t resp sys.st
  match rest with
  | [] => { st := st1, jobs := pre ++ post }
  | t2 :: r2 => { st := st1, jobs := pre ++ post ++ [Job.sweep t2 r2] }

/-- Atomic run of the whole sweep `fetchAllTrackedPrices`
(src/index.tsx:931), over a snapshot of symbols, threading the oracle's
response per symbol; the loop is sequential, each fetch completing
before the next begins.  Also returns the sequence of symbols fetched,
in fetch order. -/
def fetchAllTrackedPrices (oracle : String → Option String) :
    List String → St → St × List String
  | [], st => (st, [])
  | t :: rest, st =>
    let r := fetchAllTrackedPrices oracle rest (recordAndPublish t (oracle t) st)
    (r.1, t :: r.2)

/-- Tick body `manageTickerUpdates` (src/index.tsx:950): if the market
is open, invoke the drain step; otherwise, if any tickers are tracked,
start a closed-market sweep. -/
def manageTickerUpdates (m : Bool) (sys : Sys) : Sys :=
  if m then priceUpdateLoop m sys
  else if sys.st.trackedTickers.isEmpty then sys
  else fetchAllTrackedPricesBegin sys

/-- The symbols with an in-flight drain-path fetch. -/
def drainJobs (jobs : List Job) : List String :=
  jobs.filterMap (fun j => match j with | Job.drain t => some t | _ => none)

/-- Initial state: nothing tracked, empty queue, guard clear
(src/index.tsx:38–41). -/
def initSys : Sys :=
  { st := { trackedTickers := [], updateQueue := [], isUpdatingPriceLoop := false, events := [] }
    jobs := [] }

/-- One event-loop step of the system.  Ticks (`setInterval`, the drain
loop's `setTimeout` chain, the refresh button) may fire at any time;
a fetch completion step consumes a matching pending job and supplies
the oracle's response.  The market's openness `m` is re-read from the
clock at each decision point, so it is a parameter of each step that
consults it. -/
inductive Step : Sys → Sys → Prop where
  | tick (m : Bool) (sys : Sys) : Step sys (manageTickerUpdates m sys)
  | drainTick (m : Bool) (sys : Sys) : Step sys (priceUpdateLoop m sys)
  | refreshClick (sys : Sys) : Step sys (fetchAllTrackedPricesBegin sys)
  | track (t : String) (sys : Sys) : Step sys (addTickerToTape t sys)
  | drainDone (t : String) (resp : Option String) (pre post : List Job) (sys : Sys)
      (h : sys.jobs = pre ++ Job.drain t :: post) :
      Step sys (drainFetchComplete t resp pre post sys)
  | addDone (t : String) (resp : Option String) (m : Bool) (pre post : List Job) (sys : Sys)
      (h : sys.jobs = pre ++ Job.add t :: post) :
      Step sys (addFetchComplete t resp m pre post sys)
  | sweepDone (t : String) (rest : List String) (resp : Option String) (pre post : List Job)
      (sys : Sys) (h : sys.jobs = pre ++ Job.sweep t rest :: post) :
      Step sys (sweepFetchComplete t rest resp pre post sys)

/-- States reachable from the initial state. -/
inductive Reachable : Sys → Prop where
  | init : Reachable initSys
  | step {sys sys' : Sys} : Reachable sys → Step sys sys' → Reachable sys'

/-- Inductive invariant of the scheduler. -/
structure Inv (sys : Sys) : Prop where
  keysNodup : (mapKeys sys.st.trackedTickers).Nodup
  queueNodup : sys.st.updateQueue.Nodup
  drainCount : (drainJobs sys.jobs).length ≤ 1
  guardIff : sys.st.isUpdatingPriceLoop = true ↔ drainJobs sys.jobs ≠ []
  regValues : ∀ e ∈ sys.st.trackedTickers, e.2 = -1 ∨ ∃ resp, fetchRealPrice resp = some e.2
  eventValues : ∀ e ∈ sys.st.events, ∃ resp, fetchRealPrice resp = some e.2

/-! ### Concrete states used as witnesses and counterexamples -/

/-- State after `addTickerToTape "AAPL"` begins on the initial state:
`AAPL` pending, its first fetch in flight. -/
def sys1 : Sys := addTickerToTape "AAPL" initSys

/-- State after that first fetch succeeds with text `"195"` while the
market is open: the fast path pushes `AAPL` onto the queue and re-kicks
the drain loop, which immediately pops it and starts a drain fetch. -/
def sys2 : Sys := addFetchComplete "AAPL" (some "195") true [] [] sys1

/-- State after a closed-market sweep begins while `AAPL`'s first fetch
is still pending: the sweep snapshot contains the pending symbol. -/
def sysB : Sys := fetchAllTrackedPricesBegin sys1

/-- State after the sweep's fetch of the still-pending `AAPL` succeeds
with text `"195"`: the registry now holds a successfully recorded
price, while the first fetch is still in flight. -/
def sysC : Sys := sweepFetchComplete "AAPL" [] (some "195") [Job.add "AAPL"] [] sysB

/-- State after the first fetch then fails: `addTickerToTape`'s failure
branch deletes `AAPL` unconditionally, although a successful price was
recorded. -/
def sysD : Sys := addFetchComplete "AAPL" none true [] [] sysC

/-- State after tracking begins for the unknown symbol `ZZZZZ`. -/
def sysZ : Sys := addTickerToTape "ZZZZZ" initSys

/-- Concrete scheduler state with two tracked symbols, used to exercise
the closed-market sweep. -/
def stTwo : St :=
  { trackedTickers := [("AAPL", ((195 : ℕ) : ℚ)), ("MSFT", ((410 : ℕ) : ℚ))]
    updateQueue := ["AAPL"]
    isUpdatingPriceLoop := false
    events := [] }

/-- Concrete oracle: a price text for `AAPL`, a failure for everything
else. -/
def oracleTwo : String → Option String := fun t => if t = "AAPL" then some "196" else none

/-! ### Basic lemmas about prices and the registry -/

theorem decimalToRat_nonneg (pr : ℕ × ℕ) : 0 ≤ decimalToRat pr := by
  unfold decimalToRat
  split
  · exact Nat.cast_nonneg _
  · exact div_nonneg (Nat.cast_nonneg _) (by positivity)

theorem decimalToRat_eq_zero_iff (pr : ℕ × ℕ) : decimalToRat pr = 0 ↔ pr.1 = 0 := by
  unfold decimalToRat
  split
  · simp
  · rw [div_eq_zero_iff]
    simp [pow_ne_zero]

theorem decimalToRat_pos {pr : ℕ × ℕ} (h : pr.1 ≠ 0) : 0 < decimalToRat pr :=
  lt_of_le_of_ne (decimalToRat_nonneg pr)
    (fun h0 => h ((decimalToRat_eq_zero_iff pr).mp h0.symm))

theorem fetchRealPrice_pos {resp : Option String} {q : ℚ}
    (h : fetchRealPrice resp = some q) : 0 < q := by
  unfold fetchRealPrice at h
  split at h
  · simp at h
  · split at h
    · simp at h
    · split at h
      · simp at h
      · rename_i hz
        cases h
        exact decimalToRat_pos hz

theorem mapHas_iff {k : String} {m : List (String × ℚ)} :
    mapHas k m = true ↔ k ∈ mapKeys m := by
  simp [mapHas, mapKeys, List.any_eq_true, List.mem_map]

theorem mapKeys_mapSet (k : String) (v : ℚ) (m : List (String × ℚ)) :
    mapKeys (mapSet k v m) = if mapHas k m then mapKeys m else mapKeys m ++ [k] := by
  unfold mapSet
  split
  · simp only [mapKeys, List.map_map]
    apply List.map_congr_left
    intro e _
    by_cases h : e.1 = k <;> simp [h, Function.comp]
  · simp [mapKeys]

theorem keysNodup_mapSet (k : String) (v : ℚ) {m : List (String × ℚ)}
    (h : (mapKeys m).Nodup) : (mapKeys (mapSet k v m)).Nodup := by
  rw [mapKeys_mapSet]
  split
  · exact h
  · rename_i hk
    have hk2 : k ∉ mapKeys m := fun hm => hk (mapHas_iff.mpr hm)
    simp [List.nodup_append, h, hk2]

theorem mem_mapSet {e : String × ℚ} {k : String} {v : ℚ} {m : List (String × ℚ)}
    (h : e ∈ mapSet k v m) : e ∈ m ∨ e = (k, v) := by
  unfold mapSet at h
  split at h
  · obtain ⟨a, ha, hg⟩ := List.mem_map.mp h
    by_cases hak : a.1 = k
    · right
      rw [← hg]
      simp [hak]
    · left
      rw [← hg]
      simpa [hak] using ha
  · rcases List.mem_append.mp h with h1 | h1
    · exact Or.inl h1
    · exact Or.inr (List.mem_singleton.mp h1)

theorem mem_mapDelete {e : String × ℚ} {k : String} {m : List (String × ℚ)}
    (h : e ∈ mapDelete k m) : e ∈ m :=
  List.mem_of_mem_filter h

theorem keysNodup_mapDelete (k : String) {m : List (String × ℚ)}
    (h : (mapKeys m).Nodup) : (mapKeys (mapDelete k m)).Nodup :=
  List.Nodup.sublist (List.Sublist.map Prod.fst (List.filter_sublist m)) h

theorem mapHas_mapDelete_self (k : String) (m : List (String × ℚ)) :
    mapHas k (mapDelete k m) = false := by
  simp only [mapHas, mapDelete]
  rw [List.any_eq_false]
  intro e he
  have h2 := List.of_mem_filter he
  simpa using h2

/-! ### Lemmas about drain jobs -/

theorem drainJobs_append (a b : List Job) : drainJobs (a ++ b) = drainJobs a ++ drainJobs b :=
  List.filterMap_append a b _

theorem drainJobs_nil : drainJobs [] = [] := rfl

theorem drainJobs_cons_drain (t : String) (l : List Job) :
    drainJobs (Job.drain t :: l) = t :: drainJobs l := rfl

theorem drainJobs_cons_add (t : String) (l : List Job) :
    drainJobs (Job.add t :: l) = drainJobs l := rfl

theorem drainJobs_cons_sweep (t : String) (r : List String) (l : List Job) :
    drainJobs (Job.sweep t r :: l) = drainJobs l := rfl

theorem drainJobs_middle_add (pre post : List Job) (t : String) :
    drainJobs (pre ++ Job.add t :: post) = drainJobs (pre ++ post) := by
  simp [drainJobs_append, drainJobs_cons_add]

theorem drainJobs_middle_sweep (pre post : List Job) (t : String) (r : List String) :
    drainJobs (pre ++ Job.sweep t r :: post) = drainJobs (pre ++ post) := by
  simp [drainJobs_append, drainJobs_cons_sweep]

theorem drainJobs_of_middle_drain {pre post : List Job} {t : String}
    (h : (drainJobs (pre ++ Job.drain t :: post)).length ≤ 1) :
    drainJobs pre = [] ∧ drainJobs post = [] := by
  rw [drainJobs_append, drainJobs_cons_drain] at h
  simp only [List.length_append, List.length_cons] at h
  exact ⟨List.length_eq_zero.mp (by omega), List.length_eq_zero.mp (by omega)⟩

/-! ### Lemmas about `recordAndPublish` -/

theorem recordAndPublish_updateQueue (t : String) (resp : Option String) (st : St) :
    (recordAndPublish t resp st).updateQueue = st.updateQueue := by
  unfold recordAndPublish
  split <;> rfl

theorem recordAndPublish_guard (t : String) (resp : Option String) (st : St) :
    (recordAndPublish t resp st).isUpdatingPriceLoop = st.isUpdatingPriceLoop := by
  unfold recordAndPublish
  split <;> rfl

theorem recordAndPublish_keysNodup (t : String) (resp : Option String) {st : St}
    (h : (mapKeys st.trackedTickers).Nodup) :
    (mapKeys (recordAndPublish t resp st).trackedTickers).Nodup := by
  unfold recordAndPublish
  split
  · exact keysNodup_mapSet _ _ h
  · exact h

theorem recordAndPublish_regValues (t : String) (resp : Option String) {st : St}
    (h : ∀ e ∈ st.trackedTickers, e.2 = -1 ∨ ∃ r, fetchRealPrice r = some e.2) :
    ∀ e ∈ (recordAndPublish t resp st).trackedTickers,
      e.2 = -1 ∨ ∃ r, fetchRealPrice r = some e.2 := by
  unfold recordAndPublish
  split
  · rename_i p hp
    intro e he
    rcases mem_mapSet he with h1 | h1
    · exact h e h1
    · exact Or.inr ⟨resp, h1 ▸ hp⟩
  · exact h

theorem recordAndPublish_eventValues (t : String) (resp : Option String) {st : St}
    (h : ∀ e ∈ st.events, ∃ r, fetchRealPrice r = some e.2) :
    ∀ e ∈ (recordAndPublish t resp st).events, ∃ r, fetchRealPrice r = some e.2 := by
  unfold recordAndPublish
  split
  · rename_i p hp
    intro e he
    rcases List.mem_append.mp he with h1 | h1
    · exact h e h1
    · rw [List.mem_singleton.mp h1]
      exact ⟨resp, hp⟩
  · exact h

/-! ### Preservation of the invariant by every step -/

theorem refillQueue_nodup {st : St} (h1 : (mapKeys st.trackedTickers).Nodup)
    (h2 : st.updateQueue.Nodup) : (refillQueue st).Nodup := by
  unfold refillQueue
  split
  · exact h1
  · exact h2

theorem inv_priceUpdateLoop (m : Bool) {sys : Sys} (h : Inv sys) :
    Inv (priceUpdateLoop m sys) := by
  unfold priceUpdateLoop
  split
  · exact h
  · rename_i hg
    simp only [Bool.or_eq_true, Bool.not_eq_true', not_or] at hg
    obtain ⟨hg1, _⟩ := hg
    have hdj : drainJobs sys.jobs = [] := by
      by_contra hne
      rw [h.guardIff.mpr hne] at hg1
      exact absurd hg1 (by simp)
    split
    · exact h
    · rename_i t rest hq
      have hqn : (t :: rest).Nodup := hq ▸ refillQueue_nodup h.keysNodup h.queueNodup
      split
      · exact ⟨h.keysNodup, hqn.of_cons, h.drainCount, h.guardIff, h.regValues, h.eventValues⟩
      · refine ⟨h.keysNodup, hqn.of_cons, ?_, ?_, h.regValues, h.eventValues⟩
        · simp [drainJobs_append, hdj, drainJobs_cons_drain, drainJobs_nil]
        · simp [drainJobs_append, hdj, drainJobs_cons_drain, drainJobs_nil]

theorem inv_addTickerToTape (t : String) {sys : Sys} (h : Inv sys) :
    Inv (addTickerToTape t sys) := by
  unfold addTickerToTape
  split
  · exact h
  · refine ⟨keysNodup_mapSet _ _ h.keysNodup, h.queueNodup, ?_, ?_, ?_, h.eventValues⟩
    · have : drainJobs (sys.jobs ++ [Job.add t]) = drainJobs sys.jobs := by
        simp [drainJobs_append, drainJobs_cons_add, drainJobs_nil]
      show (drainJobs (sys.jobs ++ [Job.add t])).length ≤ 1
      rw [this]
      exact h.drainCount
    · have : drainJobs (sys.jobs ++ [Job.add t]) = drainJobs sys.jobs := by
        simp [drainJobs_append, drainJobs_cons_add, drainJobs_nil]
      show sys.st.isUpdatingPriceLoop = true ↔ drainJobs (sys.jobs ++ [Job.add t]) ≠ []
      rw [this]
      exact h.guardIff
    · intro e he
      rcases mem_mapSet he with h1 | h1
      · exact h.regValues e h1
      · exact Or.inl (by rw [h1])

theorem inv_drainFetchComplete (t : String) (resp : Option String) (pre post : List Job)
    {sys : Sys} (hjobs : sys.jobs = pre ++ Job.drain t :: post) (h : Inv sys) :
    Inv (drainFetchComplete t resp pre post sys) := by
  have hdj : drainJobs pre = [] ∧ drainJobs post = [] :=
    drainJobs_of_middle_drain (hjobs ▸ h.drainCount)
  refine ⟨recordAndPublish_keysNodup t resp h.keysNodup, ?_, ?_, ?_,
    recordAndPublish_regValues t resp h.regValues,
    recordAndPublish_eventValues t resp h.eventValues⟩
  · show (recordAndPublish t resp sys.st).updateQueue.Nodup
    rw [recordAndPublish_updateQueue]
    exact h.queueNodup
  · simp [drainFetchComplete, drainJobs_append, hdj.1, hdj.2]
  · simp [drainFetchComplete, drainJobs_append, hdj.1, hdj.2]

theorem inv_addFetchComplete (t : String) (resp : Option String) (m : Bool)
    (pre post : List Job) {sys : Sys} (hjobs : sys.jobs = pre ++ Job.add t :: post)
    (h : Inv sys) : Inv (addFetchComplete t resp m pre post sys) := by
  have hdjeq : drainJobs (pre ++ post) = drainJobs sys.jobs := by
    rw [hjobs, drainJobs_middle_add]
  unfold addFetchComplete
  split
  · rename_i p hp
    have hreg : ∀ e ∈ mapSet t p sys.st.trackedTickers,
        e.2 = -1 ∨ ∃ r, fetchRealPrice r = some e.2 := by
      intro e he
      rcases mem_mapSet he with h1 | h1
      · exact h.regValues e h1
      · exact Or.inr ⟨resp, h1 ▸ hp⟩
    have hev : ∀ e ∈ sys.st.events ++ [(t, p)], ∃ r, fetchRealPrice r = some e.2 := by
      intro e he
      rcases List.mem_append.mp he with h1 | h1
      · exact h.eventValues e h1
      · rw [List.mem_singleton.mp h1]
        exact ⟨resp, hp⟩
    split
    · rename_i hfast
      simp only [Bool.and_eq_true, Bool.not_eq_true'] at hfast
      apply inv_priceUpdateLoop
      refine ⟨keysNodup_mapSet _ _ h.keysNodup, ?_, ?_, ?_, hreg, hev⟩
      · have ht : t ∉ sys.st.updateQueue := by simpa using hfast.2
        simp [List.nodup_append, h.queueNodup, ht]
      · show (drainJobs (pre ++ post)).length ≤ 1
        rw [hdjeq]
        exact h.drainCount
      · show sys.st.isUpdatingPriceLoop = true ↔ drainJobs (pre ++ post) ≠ []
        rw [hdjeq]
        exact h.guardIff
    · refine ⟨keysNodup_mapSet _ _ h.keysNodup, h.queueNodup, ?_, ?_, hreg, hev⟩
      · show (drainJobs (pre ++ post)).length ≤ 1
        rw [hdjeq]
        exact h.drainCount
      · show sys.st.isUpdatingPriceLoop = true ↔ drainJobs (pre ++ post) ≠ []
        rw [hdjeq]
        exact h.guardIff
  · refine ⟨keysNodup_mapDelete _ h.keysNodup, h.queueNodup, ?_, ?_, ?_, h.eventValues⟩
    · show (drainJobs (pre ++ post)).length ≤ 1
      rw [hdjeq]
      exact h.drainCount
    · show sys.st.isUpdatingPriceLoop = true ↔ drainJobs (pre ++ post) ≠ []
      rw [hdjeq]
      exact h.guardIff
    · intro e he
      exact h.regValues e (mem_mapDelete he)

theorem inv_fetchAllTrackedPricesBegin {sys : Sys} (h : Inv sys) :
    Inv (fetchAllTrackedPricesBegin sys) := by
  unfold fetchAllTrackedPricesBegin
  split
  · exact h
  · rename_i t rest _
    have heq : drainJobs (sys.jobs ++ [Job.sweep t rest]) = drainJobs sys.jobs := by
      simp [drainJobs_append, drainJobs_cons_sweep, drainJobs_nil]
    refine ⟨h.keysNodup, h.queueNodup, ?_, ?_, h.regValues, h.eventValues⟩
    · show (drainJobs (sys.jobs ++ [Job.sweep t rest])).length ≤ 1
      rw [heq]
      exact h.drainCount
    · show sys.st.isUpdatingPriceLoop = true ↔ drainJobs (sys.jobs ++ [Job.sweep t rest]) ≠ []
      rw [heq]
      exact h.guardIff

theorem inv_sweepFetchComplete (t : String) (rest : List String) (resp : Option String)
    (pre post : List Job) {sys : Sys} (hjobs : sys.jobs = pre ++ Job.sweep t rest :: post)
    (h : Inv sys) : Inv (sweepFetchComplete t rest resp pre post sys) := by
  have hdjeq : drainJobs (pre ++ post) = drainJobs sys.jobs := by
    rw [hjobs, drainJobs_middle_sweep]
  unfold sweepFetchComplete
  split
  · refine ⟨recordAndPublish_keysNodup t resp h.keysNodup, ?_, ?_, ?_,
      recordAndPublish_regValues t resp h.regValues,
      recordAndPublish_eventValues t resp h.eventValues⟩
    · show (recordAndPublish t resp sys.st).updateQueue.Nodup
      rw [recordAndPublish_updateQueue]
      exact h.queueNodup
    · show (drainJobs (pre ++ post)).length ≤ 1
      rw [hdjeq]
      exact h.drainCount
    · show (recordAndPublish t resp sys.st).isUpdatingPriceLoop = true ↔
        drainJobs (pre ++ post) ≠ []
      rw [recordAndPublish_guard, hdjeq]
      exact h.guardIff
  · rename_i t2 r2
    have heq : drainJobs (pre ++ post ++ [Job.sweep t2 r2]) = drainJobs sys.jobs := by
      rw [drainJobs_append, show drainJobs [Job.sweep t2 r2] = [] from rfl,
        List.append_nil, hdjeq]
    refine ⟨recordAndPublish_keysNodup t resp h.keysNodup, ?_, ?_, ?_,
      recordAndPublish_regValues t resp h.regValues,
      recordAndPublish_eventValues t resp h.eventValues⟩
    · show (recordAndPublish t resp sys.st).updateQueue.Nodup
      rw [recordAndPublish_updateQueue]
      exact h.queueNodup
    · show (drainJobs (pre ++ post ++ [Job.sweep t2 r2])).length ≤ 1
      rw [heq]
      exact h.drainCount
    · show (recordAndPublish t resp sys.st).isUpdatingPriceLoop = true ↔
        drainJobs (pre ++ post ++ [Job.sweep t2 r2]) ≠ []
      rw [recordAndPublish_guard, heq]
      exact h.guardIff

theorem inv_manageTickerUpdates (m : Bool) {sys : Sys} (h : Inv sys) :
    Inv (manageTickerUpdates m sys) := by
  unfold manageTickerUpdates
  split
  · exact inv_priceUpdateLoop m h
  · split
    · exact h
    · exact inv_fetchAllTrackedPricesBegin h

theorem inv_step {sys sys' : Sys} (h : Inv sys) (hs : Step sys sys') : Inv sys' := by
  cases hs with
  | tick m sys => exact inv_manageTickerUpdates m h
  | drainTick m sys => exact inv_priceUpdateLoop m h
  | refreshClick sys => exact inv_fetchAllTrackedPricesBegin h
  | track t sys => exact inv_addTickerToTape t h
  | drainDone t resp pre post sys hjobs => exact inv_drainFetchComplete t resp pre post hjobs h
  | addDone t resp m pre post sys hjobs => exact inv_addFetchComplete t resp m pre post hjobs h
  | sweepDone t rest resp pre post sys hjobs =>
    exact inv_sweepFetchComplete t rest resp pre post hjobs h

theorem inv_init : Inv initSys := by
  refine ⟨?_, ?_, ?_, ?_, ?_, ?_⟩ <;> simp [initSys, mapKeys, drainJobs]

theorem inv_reachable {sys : Sys} (h : Reachable sys) : Inv sys := by
  induction h with
  | init => exact inv_init
  | step _ hs ih => exact inv_step ih hs

/-! ### Concrete reachable states -/

theorem reachable_sys1 : Reachable sys1 :=
  Reachable.step Reachable.init (Step.track "AAPL" initSys)

theorem reachable_sys2 : Reachable sys2 :=
  Reachable.step reachable_sys1 (Step.addDone "AAPL" (some "195") true [] [] sys1 (by decide))

theorem reachable_sysB : Reachable sysB :=
  Reachable.step reachable_sys1 (Step.refreshClick sys1)

theorem reachable_sysC : Reachable sysC :=
  Reachable.step reachable_sysB
    (Step.sweepDone "AAPL" [] (some "195") [Job.add "AAPL"] [] sysB (by decide))

/-! ### Lemmas about the atomic sweep -/

theorem fetchAllTrackedPrices_trace (oracle : String → Option String) (pending : List String) :
    ∀ st : St, (fetchAllTrackedPrices oracle pending st).2 = pending := by
  induction pending with
  | nil => intro st; rfl
  | cons t rest ih =>
    intro st
    simp only [fetchAllTrackedPrices]
    rw [ih]

theorem fetchAllTrackedPrices_queue (oracle : String → Option String) (pending : List String) :
    ∀ st : St, (fetchAllTrackedPrices oracle pending st).1.updateQueue = st.updateQueue := by
  induction pending with
  | nil => intro st; rfl
  | cons t rest ih =>
    intro st
    simp only [fetchAllTrackedPrices]
    rw [ih, recordAndPublish_updateQueue]

theorem fetchAllTrackedPrices_events (oracle : String → Option String) (pending : List String) :
    ∀ st : St, (fetchAllTrackedPrices oracle pending st).1.events =
      st.events ++ pending.filterMap (fun u => (fetchRealPrice (oracle u)).map (fun p => (u, p))) := by
  induction pending with
  | nil => intro st; simp [fetchAllTrackedPrices]
  | cons t rest ih =>
    intro st
    simp only [fetchAllTrackedPrices]
    rw [ih]
    cases hfp : fetchRealPrice (oracle t) with
    | none => simp [recordAndPublish, hfp, List.filterMap_cons]
    | some p => simp [recordAndPublish, hfp, List.filterMap_cons]

theorem mem_mapSet_self (k : String) (v : ℚ) (m : List (String × ℚ)) :
    (k, v) ∈ mapSet k v m := by
  unfold mapSet
  split
  · rename_i hhas
    obtain ⟨e, he, hp⟩ := List.any_eq_true.mp hhas
    exact List.mem_map.mpr ⟨e, he, by simp [decide_eq_true_eq.mp hp]⟩
  · exact List.mem_append.mpr (Or.inr (by simp))

theorem mem_mapSet_of_ne {t u : String} (hne : t ≠ u) (p w : ℚ) {m : List (String × ℚ)}
    (h : (t, p) ∈ m) : (t, p) ∈ mapSet u w m := by
  unfold mapSet
  split
  · exact List.mem_map.mpr ⟨(t, p), h, by simp [hne]⟩
  · exact List.mem_append.mpr (Or.inl h)

theorem recordAndPublish_mem_of_ne {t u : String} (hne : t ≠ u) (resp : Option String)
    {p : ℚ} {st : St} (h : (t, p) ∈ st.trackedTickers) :
    (t, p) ∈ (recordAndPublish u resp st).trackedTickers := by
  unfold recordAndPublish
  split
  · exact mem_mapSet_of_ne hne p _ h
  · exact h

theorem fetchAllTrackedPrices_mem_of_not_mem (oracle : String → Option String)
    {t : String} {p : ℚ} {pending : List String} (hnp : t ∉ pending) :
    ∀ st : St, (t, p) ∈ st.trackedTickers →
      (t, p) ∈ (fetchAllTrackedPrices oracle pending st).1.trackedTickers := by
  induction pending with
  | nil => intro st h; exact h
  | cons u rest ih =>
    intro st h
    simp only [fetchAllTrackedPrices]
    have hne : t ≠ u := by
      intro he
      exact hnp (he ▸ List.mem_cons_self u rest)
    exact ih (fun hm => hnp (List.mem_cons_of_mem u hm))
      _ (recordAndPublish_mem_of_ne hne _ h)

theorem fetchAllTrackedPrices_records (oracle : String → Option String)
    {pending : List String} (hnd : pending.Nodup) {t : String} (ht : t ∈ pending)
    {p : ℚ} (hp : fetchRealPrice (oracle t) = some p) :
    ∀ st : St, (t, p) ∈ (fetchAllTrackedPrices oracle pending st).1.trackedTickers := by
  induction pending with
  | nil => cases ht
  | cons u rest ih =>
    intro st
    rcases List.mem_cons.mp ht with rfl | hrest
    · simp only [fetchAllTrackedPrices]
      have hnr : t ∉ rest := by
        intro hm
        exact (List.nodup_cons.mp hnd).1 hm
      apply fetchAllTrackedPrices_mem_of_not_mem oracle hnr
      show (t, p) ∈ (recordAndPublish t (oracle t) st).trackedTickers
      unfold recordAndPublish
      rw [hp]
      exact mem_mapSet_self t p _
    · exact ih (List.nodup_cons.mp hnd).2 hrest _

/-! ### Lemmas about uppercasing and token extraction -/

theorem char_toNat_ofNat_lt {n : ℕ} (h : n < 55296) : (Char.ofNat n).toNat = n := by
  unfold Char.ofNat
  rw [dif_pos (Or.inl h)]
  rfl

theorem isLowerAlpha_range {c : Char} (h : isLowerAlpha c = true) :
    97 ≤ c.toNat ∧ c.toNat ≤ 122 := by
  simpa [isLowerAlpha] using h

theorem isUpperAlpha_jsToUpperChar (c : Char) :
    isUpperAlpha (jsToUpperChar c) = isAsciiLetter c := by
  unfold jsToUpperChar isAsciiLetter
  by_cases h : isLowerAlpha c = true
  · rw [if_pos h]
    obtain ⟨h1, h2⟩ := isLowerAlpha_range h
    have hv : (Char.ofNat (c.toNat - 32)).toNat = c.toNat - 32 :=
      char_toNat_ofNat_lt (by omega)
    have hu : isUpperAlpha (Char.ofNat (c.toNat - 32)) = true := by
      simp only [isUpperAlpha, hv, decide_eq_true_eq]
      omega
    rw [hu, h, Bool.or_true]
  · rw [if_neg h]
    have hl : isLowerAlpha c = false := by simpa using h
    rw [hl, Bool.or_false]

theorem isWordChar_jsToUpperChar (c : Char) :
    isWordChar (jsToUpperChar c) = isWordChar c := by
  unfold isWordChar jsToUpperChar
  by_cases h : isLowerAlpha c = true
  · rw [if_pos h]
    obtain ⟨h1, h2⟩ := isLowerAlpha_range h
    have hv : (Char.ofNat (c.toNat - 32)).toNat = c.toNat - 32 :=
      char_toNat_ofNat_lt (by omega)
    have hu : isUpperAlpha (Char.ofNat (c.toNat - 32)) = true := by
      simp only [isUpperAlpha, hv, decide_eq_true_eq]
      omega
    rw [hu, h]
    simp
  · rw [if_neg h]

theorem wordRunsAux_map_upper (l : List Char) :
    ∀ acc : List Char,
      wordRunsAux (l.map jsToUpperChar) (acc.map jsToUpperChar) =
        (wordRunsAux l acc).map (List.map jsToUpperChar) := by
  induction l with
  | nil =>
    intro acc
    cases acc with
    | nil => rfl
    | cons a as => simp [wordRunsAux, List.map_reverse]
  | cons c cs ih =>
    intro acc
    simp only [List.map_cons, wordRunsAux, isWordChar_jsToUpperChar]
    by_cases h : isWordChar c = true
    · rw [if_pos h, if_pos h]
      exact ih (c :: acc)
    · rw [if_neg h, if_neg h]
      rw [List.map_append]
      have hnil : wordRunsAux (cs.map jsToUpperChar) [] =
          (wordRunsAux cs []).map (List.map jsToUpperChar) := by
        simpa using ih []
      rw [hnil]
      cases acc with
      | nil => rfl
      | cons a as => simp [List.map_reverse]

theorem tickerToken_map_upper (r : List Char) :
    tickerToken (r.map jsToUpperChar) =
      (decide (1 ≤ r.length) && decide (r.length ≤ 5) && r.all isAsciiLetter) := by
  unfold tickerToken
  rw [List.length_map]
  congr 1
  rw [List.all_map,
    show isUpperAlpha ∘ jsToUpperChar = isAsciiLetter from funext isUpperAlpha_jsToUpperChar]

/-! ### The claims -/

/-- C1: in every reachable state at most one drain-path fetch is in
flight (`drainJobs` has length at most one, and the run guard is set
exactly while one is pending); a call of the drain step
`priceUpdateLoop` while the run guard is set is a no-op; and the
completion of the drain step's fetch clears the guard unconditionally,
whether the fetch succeeded or failed (the rearming `setTimeout` is a
subsequent step, taken with the guard already clear). -/
theorem C1_drain_single_flight (sys : Sys) (h : Reachable sys) :
    (drainJobs sys.jobs).length ≤ 1 ∧
    (sys.st.isUpdatingPriceLoop = true ↔ drainJobs sys.jobs ≠ []) ∧
    (sys.st.isUpdatingPriceLoop = true → ∀ m, priceUpdateLoop m sys = sys) ∧
    (∀ t resp pre post,
      (drainFetchComplete t resp pre post sys).st.isUpdatingPriceLoop = false) := by
  have hinv := inv_reachable h
  refine ⟨hinv.drainCount, hinv.guardIff, ?_, ?_⟩
  · intro hg m
    unfold priceUpdateLoop
    rw [if_pos]
    rw [hg]
    rfl
  · intro t resp pre post
    rfl

/-- C1 witness: the reachable state `sys2` has one drain fetch in
flight and its guard set; a drain tick there is a no-op, and completing
the fetch clears the guard. -/
theorem C1_drain_single_flight_witness :
    (drainJobs sys2.jobs).length ≤ 1 ∧ priceUpdateLoop true sys2 = sys2 ∧
      (drainFetchComplete "AAPL" none [] [] sys2).st.isUpdatingPriceLoop = false := by
  have h := C1_drain_single_flight sys2 reachable_sys2
  exact ⟨h.1, h.2.2.1 (by decide) true, h.2.2.2 "AAPL" none [] []⟩

/-- C2: when the one-shot first fetch issued by `addTickerToTape` for a
symbol fails, the completion step removes the symbol from the registry
(it is absent afterward) and publishes no event at all. -/
theorem C2_failed_first_fetch (sys : Sys) (t : String) (resp : Option String) (m : Bool)
    (pre post : List Job) (hfail : fetchRealPrice resp = none) :
    mapHas t (addFetchComplete t resp m pre post sys).st.trackedTickers = false ∧
    (addFetchComplete t resp m pre post sys).st.events = sys.st.events := by
  unfold addFetchComplete
  rw [hfail]
  exact ⟨mapHas_mapDelete_self t _, rfl⟩

/-- C2 witness: tracking begins for `ZZZZZ`, the oracle replies with
non-numeric text, and afterwards `ZZZZZ` is absent and no event was
published. -/
theorem C2_failed_first_fetch_witness :
    fetchRealPrice (some "No price found for that symbol") = none ∧
    mapHas "ZZZZZ"
      (addFetchComplete "ZZZZZ" (some "No price found for that symbol") false [] []
        sysZ).st.trackedTickers = false ∧
    (addFetchComplete "ZZZZZ" (some "No price found for that symbol") false [] []
        sysZ).st.events = sysZ.st.events := by
  have h := C2_failed_first_fetch sysZ "ZZZZZ" (some "No price found for that symbol")
    false [] [] (by decide)
  exact ⟨by decide, h.1, h.2⟩

/-- C3 counterexample: the reachable state `sysC` holds the
successfully recorded positive price 195 for `AAPL` (landed by a sweep
fetch while the first fetch was still pending), yet the subsequent
failure of that first fetch is a step of the system that removes `AAPL`
from the registry — a fetch failure removing a symbol that has a
recorded price, contradicting the claim. -/
theorem C3_counterexample :
    Reachable sysC ∧ ("AAPL", ((195 : ℕ) : ℚ)) ∈ sysC.st.trackedTickers ∧
      (0 : ℚ) < ((195 : ℕ) : ℚ) ∧ Step sysC sysD ∧
      mapHas "AAPL" sysD.st.trackedTickers = false :=
  ⟨reachable_sysC, by decide, by decide,
    Step.addDone "AAPL" none true [] [] sysC (by decide), by decide⟩

/-- C3 amended: a failed refresh on the drain path or the sweep path
leaves the registry — every symbol and its last known price — entirely
unchanged; the only failure that removes a symbol is the failure of the
symbol's own first fetch in `addTickerToTape`, and that removal is
unconditional: it deletes exactly that symbol's entry, even when a
concurrently completed fetch has recorded a price for it in the
meantime. -/
theorem C3_failure_removal (sys : Sys) (t : String) (resp : Option String)
    (hfail : fetchRealPrice resp = none) :
    (∀ u pre post,
      (drainFetchComplete u resp pre post sys).st.trackedTickers = sys.st.trackedTickers) ∧
    (∀ u rest pre post,
      (sweepFetchComplete u rest resp pre post sys).st.trackedTickers =
        sys.st.trackedTickers) ∧
    (∀ m pre post,
      (addFetchComplete t resp m pre post sys).st.trackedTickers =
        mapDelete t sys.st.trackedTickers) := by
  refine ⟨?_, ?_, ?_⟩
  · intro u pre post
    unfold drainFetchComplete recordAndPublish
    rw [hfail]
  · intro u rest pre post
    unfold sweepFetchComplete recordAndPublish
    rw [hfail]
    cases rest <;> rfl
  · intro m pre post
    unfold addFetchComplete
    rw [hfail]

/-- C3 amended witness: at the concrete state `sysC`, a failed drain
refresh of `MSFT` leaves the registry unchanged, while the failed first
fetch of `AAPL` deletes exactly `AAPL`. -/
theorem C3_failure_removal_witness :
    (drainFetchComplete "MSFT" none [] [] sysC).st.trackedTickers =
      sysC.st.trackedTickers ∧
    (addFetchComplete "AAPL" none true [] [] sysC).st.trackedTickers =
      mapDelete "AAPL" sysC.st.trackedTickers := by
  have h := C3_failure_removal sysC "AAPL" none rfl
  exact ⟨h.1 "MSFT" [] [], h.2.2 true [] []⟩

/-- C4: in every reachable state the work queue has no duplicates (so
between refills each symbol, including fast-path insertions, appears at
most once); and when the queue is empty and the registry non-empty —
the exact refill condition of the drain step — the refill is precisely
the registry's key snapshot: equal to `mapKeys`, duplicate-free, and
containing exactly the registry members. -/
theorem C4_queue_refill (sys : Sys) (h : Reachable sys) :
    sys.st.updateQueue.Nodup ∧
    (sys.st.updateQueue = [] → sys.st.trackedTickers ≠ [] →
      refillQueue sys.st = mapKeys sys.st.trackedTickers ∧
      (refillQueue sys.st).Nodup ∧
      ∀ t, t ∈ refillQueue sys.st ↔ mapHas t sys.st.trackedTickers = true) := by
  have hinv := inv_reachable h
  refine ⟨hinv.queueNodup, ?_⟩
  intro hq hne
  have hr : refillQueue sys.st = mapKeys sys.st.trackedTickers := by
    unfold refillQueue
    rw [if_pos]
    simp [hq, hne]
  refine ⟨hr, hr ▸ hinv.keysNodup, ?_⟩
  intro t
  rw [hr, mapHas_iff]

/-- C4 witness: at the reachable state `sys2` (empty queue, `AAPL`
tracked) the queue is duplicate-free and the refill equals the registry
key snapshot. -/
theorem C4_queue_refill_witness :
    sys2.st.updateQueue.Nodup ∧ refillQueue sys2.st = mapKeys sys2.st.trackedTickers := by
  have h := C4_queue_refill sys2 reachable_sys2
  exact ⟨h.1, (h.2 (by decide) (by decide)).1⟩

/-- C5: `fetchRealPrice` returns exactly the positive parses: a thrown
call is a failure, and a response text whose filtered digits parse to
`NaN` or to a non-positive value (the parse is never negative, so this
is exactly zero) is a failure; every success carries the positive
parsed price.  Failure is an ordinary `none` return, never an
exception. -/
theorem C5_fetchRealPrice_positive (resp : Option String) :
    fetchRealPrice resp =
      match resp with
      | none => none
      | some text =>
        match jsParseFloat (priceDigits text) with
        | none => none
        | some q => if 0 < q then some q else none := by
  cases resp with
  | none => rfl
  | some text =>
    show (match jsParseFloatParts (priceDigits text) with
      | none => none
      | some pr => if pr.1 = 0 then none else some (decimalToRat pr)) =
      (match Option.map decimalToRat (jsParseFloatParts (priceDigits text)) with
      | none => none
      | some q => if 0 < q then some q else none)
    cases hp : jsParseFloatParts (priceDigits text) with
    | none => rfl
    | some pr =>
      show (if pr.1 = 0 then none else some (decimalToRat pr)) =
        (if 0 < decimalToRat pr then some (decimalToRat pr) else none)
      by_cases hz : pr.1 = 0
      · rw [if_pos hz, if_neg]
        rw [(decimalToRat_eq_zero_iff pr).mpr hz]
        exact lt_irrefl 0
      · rw [if_neg hz, if_pos (decimalToRat_pos hz)]

/-- C6: `isMarketOpen` returns false for every Eastern-time instant
falling on a Saturday or Sunday, and false on a weekday whenever the
time of day lies outside the half-open window `[09:30, 16:00)`
(expressed in minutes of the day: outside `[570, 960)`). -/
theorem C6_closed_weekend_offhours (t : ETTime) (hm : t.minute < 60) :
    (t.day = 0 ∨ t.day = 6 → isMarketOpen t = false) ∧
    (0 < t.day → t.day < 6 →
      ¬(570 ≤ 60 * t.hour + t.minute ∧ 60 * t.hour + t.minute < 960) →
      isMarketOpen t = false) := by
  constructor
  · intro hd
    unfold isMarketOpen
    rw [if_pos]
    rcases hd with hd | hd <;> simp [hd]
  · intro _ _ h3
    unfold isMarketOpen
    rw [if_pos]
    simp only [Bool.or_eq_true, Bool.not_eq_true', Bool.and_eq_false_iff,
      Bool.or_eq_false_iff, decide_eq_false_iff_not, Bool.and_eq_true, decide_eq_true_eq]
    left
    omega

/-- C6 witness: Saturday 2024-07-06 at noon is closed, and Monday
2024-07-08 at 08:00 (before the bell) is closed. -/
theorem C6_closed_weekend_offhours_witness :
    isMarketOpen ⟨2024, 7, 6, 6, 12, 0⟩ = false ∧
      isMarketOpen ⟨2024, 7, 8, 1, 8, 0⟩ = false :=
  ⟨(C6_closed_weekend_offhours ⟨2024, 7, 6, 6, 12, 0⟩ (by decide)).1 (Or.inr rfl),
    (C6_closed_weekend_offhours ⟨2024, 7, 8, 1, 8, 0⟩ (by decide)).2 (by decide) (by decide)
      (by decide)⟩

/-- C7: at 12:00 Eastern, `isMarketOpen` is false on 2024-07-04 (a
Thursday, Independence Day) and on 2024-12-25 (a Wednesday, Christmas),
and true on 2024-07-05 (the adjacent Friday, not a holiday); the
weekdays are computed from the calendar dates by Zeller's congruence. -/
theorem C7_fixed_holidays :
    zellerDay 2024 7 4 = 4 ∧ zellerDay 2024 12 25 = 3 ∧ zellerDay 2024 7 5 = 5 ∧
    isMarketOpen ⟨2024, 7, 4, zellerDay 2024 7 4, 12, 0⟩ = false ∧
    isMarketOpen ⟨2024, 12, 25, zellerDay 2024 12 25, 12, 0⟩ = false ∧
    isMarketOpen ⟨2024, 7, 5, zellerDay 2024 7 5, 12, 0⟩ = true := by
  refine ⟨?_, ?_, ?_, ?_, ?_, ?_⟩ <;> decide

/-- C8: the closed-market sweep over the registry snapshot (which is
what `manageTickerUpdates` invokes when the market is closed and the
registry is non-empty) fetches the symbols sequentially in snapshot
order, each tracked symbol exactly once; it records each successful
price in the registry and publishes one event per success in completion
order; and it leaves the work queue untouched. -/
theorem C8_sweep_behavior (oracle : String → Option String) (st : St)
    (hnd : (mapKeys st.trackedTickers).Nodup) :
    (∀ sys : Sys, sys.st = st → st.trackedTickers ≠ [] →
      manageTickerUpdates false sys = fetchAllTrackedPricesBegin sys) ∧
    (fetchAllTrackedPrices oracle (mapKeys st.trackedTickers) st).2 =
      mapKeys st.trackedTickers ∧
    (∀ t, mapHas t st.trackedTickers = true →
      (fetchAllTrackedPrices oracle (mapKeys st.trackedTickers) st).2.count t = 1) ∧
    (fetchAllTrackedPrices oracle (mapKeys st.trackedTickers) st).1.updateQueue =
      st.updateQueue ∧
    (fetchAllTrackedPrices oracle (mapKeys st.trackedTickers) st).1.events =
      st.events ++ (mapKeys st.trackedTickers).filterMap
        (fun u => (fetchRealPrice (oracle u)).map (fun p => (u, p))) ∧
    (∀ t p, mapHas t st.trackedTickers = true → fetchRealPrice (oracle t) = some p →
      (t, p) ∈ (fetchAllTrackedPrices oracle (mapKeys st.trackedTickers) st).1.trackedTickers) := by
  refine ⟨?_, fetchAllTrackedPrices_trace oracle _ st, ?_,
    fetchAllTrackedPrices_queue oracle _ st, fetchAllTrackedPrices_events oracle _ st, ?_⟩
  · intro sys hst hne
    unfold manageTickerUpdates
    rw [if_neg (by simp), if_neg]
    rw [hst]
    simp [hne]
  · intro t ht
    rw [fetchAllTrackedPrices_trace oracle _ st]
    exact List.count_eq_one_of_mem hnd (mapHas_iff.mp ht)
  · intro t p ht hp
    exact fetchAllTrackedPrices_records oracle hnd (mapHas_iff.mp ht) hp st

/-- C8 witness: a concrete sweep over two tracked symbols with one
successful and one failed fetch: the fetch sequence is the snapshot,
`AAPL` is fetched exactly once, the queue is unchanged, and the
successful price is recorded. -/
theorem C8_sweep_behavior_witness :
    (fetchAllTrackedPrices oracleTwo (mapKeys stTwo.trackedTickers) stTwo).2 =
      ["AAPL", "MSFT"] ∧
    (fetchAllTrackedPrices oracleTwo (mapKeys stTwo.trackedTickers) stTwo).2.count "AAPL" = 1 ∧
    (fetchAllTrackedPrices oracleTwo (mapKeys stTwo.trackedTickers) stTwo).1.updateQueue =
      stTwo.updateQueue ∧
    ("AAPL", ((196 : ℕ) : ℚ)) ∈
      (fetchAllTrackedPrices oracleTwo (mapKeys stTwo.trackedTickers) stTwo).1.trackedTickers := by
  have h := C8_sweep_behavior oracleTwo stTwo (by decide)
  exact ⟨h.2.1.trans (by decide), h.2.2.1 "AAPL" (by decide), h.2.2.2.1,
    h.2.2.2.2.2 "AAPL" ((196 : ℕ) : ℚ) (by decide) (by decide)⟩

/-- C9 counterexample: for the query `"apple"` the entry point begins
tracking `APPLE`, although the original query text contains no token of
one to five uppercase letters — because `handleFormSubmit` uppercases
the prompt before the regex scan, the tracked set is not the matches of
the original text. -/
theorem C9_counterexample :
    handleFormSubmit "apple" = ["APPLE"] ∧ trackTickersFromPrompt "apple" = [] := by
  refine ⟨?_, ?_⟩ <;> decide

/-- C9 amended: for every query text consisting of ASCII characters —
the scope on which the per-character model of `toUpperCase` coincides
with JavaScript, which applies expanding Unicode full case mappings
such as `ß` → `SS` to other code points — the symbols for which
tracking is begun are exactly the maximal word-character tokens of the
trimmed original query that consist of one to five letters of either
case, each converted to uppercase (equivalently: the
one-to-five-uppercase-letter pattern matches of the uppercased
query). -/
theorem C9_tracked_tokens (input : String)
    (_hascii : ∀ c ∈ input.data, c.toNat < 128) :
    handleFormSubmit input =
      ((wordRuns (trimL input.data)).filter
        (fun r => decide (1 ≤ r.length) && decide (r.length ≤ 5) && r.all isAsciiLetter)).map
        (fun r => String.mk (r.map jsToUpperChar)) := by
  unfold handleFormSubmit
  by_cases h : (trimL input.data).isEmpty
  · rw [if_pos h]
    rw [List.isEmpty_iff.mp h]
    rfl
  · rw [if_neg h]
    unfold trackTickersFromPrompt
    rw [show (String.mk ((trimL input.data).map jsToUpperChar)).data =
      (trimL input.data).map jsToUpperChar from rfl]
    unfold wordRuns
    rw [show ((trimL input.data).map jsToUpperChar) =
      ((trimL input.data).map jsToUpperChar) from rfl]
    have hruns : wordRunsAux ((trimL input.data).map jsToUpperChar) [] =
        (wordRunsAux (trimL input.data) []).map (List.map jsToUpperChar) := by
      simpa using wordRunsAux_map_upper (trimL input.data) []
    rw [hruns, List.filter_map, List.map_map]
    congr 1
    · apply List.filter_congr
      intro r _
      exact tickerToken_map_upper r

/-- C9 amended witness: a concrete ASCII query with mixed-case tokens
of various lengths; tracking begins exactly for its short alphabetic
tokens, uppercased. -/
theorem C9_tracked_tokens_witness :
    (∀ c ∈ ("Buy aapl and MSFT today!").data, c.toNat < 128) ∧
    handleFormSubmit "Buy aapl and MSFT today!" =
      ((wordRuns (trimL ("Buy aapl and MSFT today!").data)).filter
        (fun r => decide (1 ≤ r.length) && decide (r.length ≤ 5) && r.all isAsciiLetter)).map
        (fun r => String.mk (r.map jsToUpperChar)) :=
  ⟨by decide, C9_tracked_tokens "Buy aapl and MSFT today!" (by decide)⟩

/-- C10: in every reachable state, every value stored in the registry
is either the pending sentinel `-1` (inserted when tracking begins) or
a positive price that some oracle response produces through
`fetchRealPrice`; and every published event carries such a positive
fetched price — in particular the sentinel `-1` is never published. -/
theorem C10_registry_values (sys : Sys) (h : Reachable sys) :
    (∀ e ∈ sys.st.trackedTickers,
      e.2 = -1 ∨ (0 < e.2 ∧ ∃ resp, fetchRealPrice resp = some e.2)) ∧
    (∀ e ∈ sys.st.events, e.2 ≠ -1 ∧ 0 < e.2 ∧ ∃ resp, fetchRealPrice resp = some e.2) := by
  have hinv := inv_reachable h
  constructor
  · intro e he
    rcases hinv.regValues e he with h1 | ⟨r, hr⟩
    · exact Or.inl h1
    · exact Or.inr ⟨fetchRealPrice_pos hr, r, hr⟩
  · intro e he
    obtain ⟨r, hr⟩ := hinv.eventValues e he
    have hpos := fetchRealPrice_pos hr
    refine ⟨?_, hpos, r, hr⟩
    intro h0
    rw [h0] at hpos
    norm_num at hpos

/-- C10 witness: in the reachable state `sys2` the registry holds the
fetched positive price 195 for `AAPL`, and the sole published event
carries it. -/
theorem C10_registry_values_witness :
    ("AAPL", ((195 : ℕ) : ℚ)) ∈ sys2.st.trackedTickers ∧
      (((195 : ℕ) : ℚ) = -1 ∨
        (0 < ((195 : ℕ) : ℚ) ∧ ∃ resp, fetchRealPrice resp = some ((195 : ℕ) : ℚ))) := by
  have h := C10_registry_values sys2 reachable_sys2
  exact ⟨by decide, h.1 ("AAPL", ((195 : ℕ) : ℚ)) (by decide)⟩

end StockApp
